import Mathlib

/-!
# Verification of `MakeEndpointProbeIngress` (net-contour)

Shallow embedding of `pkg/reconciler/contour/resources/kingress.go`
(`MakeEndpointProbeIngress`) and of the small pieces of repository code it
depends on.  Go maps over strings are modelled as association lists
(`List (String × α)`) whose order stands for one iteration order of the map;
Go's `sets.String` is modelled as a duplicate-free `List String` whose
`List()` method is an insertion sort.
-/

namespace NetContour

/-- Models `intstr.IntOrString`; only `intstr.FromInt` is used by the code. -/
inductive IntOrString where
  | int (i : Int)
  | str (s : String)
deriving DecidableEq, Repr

/-- Go map read `m[k]` on a `map[string]string`: first binding wins, the zero
value `""` is returned when the key is absent. -/
def lookupDefault (m : List (String × String)) (k : String) : String :=
  match m with
  | [] => ""
  | (k', v) :: rest => if k' = k then v else lookupDefault rest k

/-- Go map lookup `v, ok := m[k]` on an association list: first binding wins. -/
def mapLookup {α : Type} (m : List (String × α)) (k : String) : Option α :=
  match m with
  | [] => none
  | (k', v) :: rest => if k' = k then some v else mapLookup rest k

/-- Go map write `m[k] = v`: replace the binding when the key is present
(keeping its position), append a fresh binding otherwise. -/
def mapInsert {α : Type} (m : List (String × α)) (k : String) (v : α) :
    List (String × α) :=
  match m with
  | [] => [(k, v)]
  | (k', v') :: rest =>
    if k' = k then (k, v) :: rest else (k', v') :: mapInsert rest k v

/-- Keys of an association list, in binding order. -/
def mapKeys {α : Type} (m : List (String × α)) : List String := m.map Prod.fst

/-- `sets.String.Insert`: add a string to the set (no duplicates). -/
def ssInsert (l : List String) (s : String) : List String :=
  if s ∈ l then l else s :: l

/-- Structural lexicographic comparison of char lists (`a` not greater than
`b`), mirroring the byte-wise string comparison of Go's `sort.Strings`.
(Structural recursion, so that concrete sorts evaluate.) -/
def charListLeb : List Char → List Char → Bool
  | [], _ => true
  | _ :: _, [] => false
  | c :: cs, d :: ds =>
    if c < d then true else if d < c then false else charListLeb cs ds

/-- The lexicographic order on strings along which a `sets.String` is
listed. -/
def strLe (a b : String) : Prop := charListLeb a.data b.data = true

instance : DecidableRel strLe := fun a b =>
  inferInstanceAs (Decidable (charListLeb a.data b.data = true))

instance : IsTotal String strLe where
  total a b := by
    suffices h : ∀ x y : List Char,
        charListLeb x y = true ∨ charListLeb y x = true from h a.data b.data
    intro x
    induction x with
    | nil => intro y; exact Or.inl rfl
    | cons c cs ih =>
      intro y
      cases y with
      | nil => exact Or.inr rfl
      | cons d ds =>
        by_cases h1 : c < d
        · left; simp [charListLeb, h1]
        · by_cases h2 : d < c
          · right; simp [charListLeb, h1, h2]
          · rcases ih ds with h | h
            · left; simp [charListLeb, h1, h2, h]
            · right; simp [charListLeb, h1, h2, h]

instance : IsTrans String strLe where
  trans a b c := by
    suffices h : ∀ x y z : List Char, charListLeb x y = true →
        charListLeb y z = true → charListLeb x z = true from
      h a.data b.data c.data
    intro x
    induction x with
    | nil => intro y z _ _; rfl
    | cons cx xs ih =>
      intro y z hxy hyz
      cases y with
      | nil => simp [charListLeb] at hxy
      | cons cy ys =>
        cases z with
        | nil => simp [charListLeb] at hyz
        | cons cz zs =>
          by_cases h1 : cx < cy
          · by_cases h2 : cy < cz
            · simp [charListLeb, lt_trans h1 h2]
            · by_cases h3 : cz < cy
              · simp [charListLeb, h2, h3] at hyz
              · have hcz : cy = cz := le_antisymm (not_lt.mp h3) (not_lt.mp h2)
                simp [charListLeb, hcz ▸ h1]
          · by_cases h4 : cy < cx
            · simp [charListLeb, h1, h4] at hxy
            · have hcx : cx = cy := le_antisymm (not_lt.mp h4) (not_lt.mp h1)
              subst hcx
              simp only [charListLeb, if_neg h1, if_neg h4] at hxy ⊢
              by_cases h2 : cx < cz
              · simp [h2]
              · by_cases h3 : cz < cx
                · simp [charListLeb, h2, h3] at hyz
                · simp only [charListLeb, if_neg h2, if_neg h3] at hyz ⊢
                  exact ih ys zs hxy hyz

/-- `sets.String.List`: the members in sorted (ascending) order. -/
def sortStrings (l : List String) : List String :=
  l.insertionSort strLe

/-- `kmeta.UnionMaps a b`: union of two string maps, later bindings of `b`
overriding those of `a`. -/
def unionMaps (a b : List (String × String)) : List (String × String) :=
  b.foldl (fun acc kv => mapInsert acc kv.1 kv.2) a

/-- `resources.ServiceInfo`: per-backend-service aggregate built during
synthesis (port, observed visibility set, rewrite host, path-presence flag). -/
structure ServiceInfo where
  Port : IntOrString
  RawVisibilities : List String
  RewriteHost : String
  HasPath : Bool
deriving DecidableEq, Repr

/-- Modelled from the spec: `ServiceInfo.Visibilities` (declared outside
`src/`) returns the recorded visibility classes of the service, i.e. the
observed visibility set listed in sorted order (`sets.String.List`). -/
def ServiceInfo.Visibilities (si : ServiceInfo) : List String :=
  sortStrings si.RawVisibilities

/-- The desired backend-service map `map[string]resources.ServiceInfo`. -/
abbrev SNSMap := List (String × ServiceInfo)

/-- A `projectcontour` route match condition; the Go field `Prefix` (a path
match) is modelled as `PfxMatch`. -/
structure MatchCondition where
  PfxMatch : String
deriving DecidableEq, Repr

/-- A backend service reference of a `projectcontour` route. -/
structure ProxyService where
  Name : String
  Port : Int
deriving DecidableEq, Repr

/-- A `projectcontour` route: match conditions plus backend services. -/
structure ProxyRoute where
  Conditions : List MatchCondition
  Services : List ProxyService
deriving DecidableEq, Repr

/-- The `spec` of a `projectcontour` `HTTPProxy` (the fields used). -/
structure HTTPProxySpec where
  Routes : List ProxyRoute
deriving DecidableEq, Repr

/-- The `status` of an `HTTPProxy` (the fields used). -/
structure HTTPProxyStatus where
  CurrentStatus : String
deriving DecidableEq, Repr

/-- A previously-committed `HTTPProxy` object (the fields used). -/
structure HTTPProxy where
  Annotations : List (String × String)
  Spec : HTTPProxySpec
  Status : HTTPProxyStatus
deriving DecidableEq, Repr

/-- The metadata of the parent `v1alpha1.Ingress` used by the synthesizer. -/
structure ParentMeta where
  Name : String
  Namespace : String
  Generation : Int
  Labels : List (String × String)
  Annotations : List (String × String)
deriving DecidableEq, Repr

/-- An owner reference (`kmeta.NewControllerRef`): name of the owner and the
controller flag. -/
structure OwnerReference where
  Name : String
  Controller : Bool
deriving DecidableEq, Repr

/-- `v1alpha1.IngressBackend`. -/
structure IngressBackend where
  ServiceName : String
  ServiceNamespace : String
  ServicePort : IntOrString
deriving DecidableEq, Repr

/-- `v1alpha1.IngressBackendSplit` (embedded backend flattened into a field). -/
structure IngressBackendSplit where
  Backend : IngressBackend
  Percent : Int
deriving DecidableEq, Repr

/-- `v1alpha1.HTTPIngressPath` (the fields the synthesizer sets). -/
structure HTTPIngressP where
  RewriteHost : String
  Splits : List IngressBackendSplit
deriving DecidableEq, Repr

/-- `v1alpha1.HTTPIngressRuleValue`. -/
structure HTTPIngressRuleValue where
  Paths : List HTTPIngressP
deriving DecidableEq, Repr

/-- `v1alpha1.IngressRule` (the fields the synthesizer sets); the Go `HTTP`
pointer is an `Option`. -/
structure IngressRule where
  Hosts : List String
  Visibility : String
  HTTP : Option HTTPIngressRuleValue
deriving DecidableEq, Repr

/-- `v1alpha1.IngressSpec` (the fields the synthesizer sets). -/
structure IngressSpec where
  HTTPOption : String
  Rules : List IngressRule
deriving DecidableEq, Repr

/-- `metav1.ObjectMeta` of the produced child ingress (the fields set). -/
structure ObjectMeta where
  Name : String
  Namespace : String
  Labels : List (String × String)
  Annotations : List (String × String)
  OwnerReferences : List OwnerReference
deriving DecidableEq, Repr

/-- The produced `v1alpha1.Ingress`. -/
structure Ingress where
  ObjectMeta : ObjectMeta
  Spec : IngressSpec
deriving DecidableEq, Repr

/-- Modelled from the spec: the proxy-native class marker key (the constant
`ClassKey`, declared outside `src/`). -/
def ClassKey : String := "projectcontour.io/ingress.class"

/-- Modelled from the spec: the marker distinguishing the child as
probe-only (the constant `EndpointsProbeKey`, declared outside `src/`). -/
def EndpointsProbeKey : String := "contour.networking.knative.dev/endpointsProbe"

/-- Modelled from the spec: `names.EndpointProbeIngress` (declared outside
`src/`) derives the probe child's name from the parent ingress name. -/
def EndpointProbeIngressName (ing : ParentMeta) : String :=
  ing.Name ++ "--ep"

/-- `kmeta.NewControllerRef`: a controller owner reference to the parent. -/
def NewControllerRef (ing : ParentMeta) : OwnerReference :=
  { Name := ing.Name, Controller := true }

/-- Lines 68–73: reverse lookup of the visibility class from the class
annotation string; Go iterates the `VisibilityClasses` map (the association
list order models the iteration order), the last matching class wins, and
the zero value `""` means no match. -/
def lookupVis (classes : List (String × String)) (ann : String) : String :=
  classes.foldl (fun vis vc => if vc.2 = ann then vc.1 else vis) ""

/-- Lines 79–84: `hasPath` — whether any condition of the route carries a
non-empty path match. -/
def hasPathOfRoute (route : ProxyRoute) : Bool :=
  route.Conditions.foldl (fun hp cond => if cond.PfxMatch ≠ "" then true else hp) false

/-- Lines 85–96: fold one backend service of a previous route into the
desired map (`si, ok := sns[svc.Name]` …). -/
def svcStep (vis : String) (hasPath : Bool) (sns : SNSMap) (svc : ProxyService) :
    SNSMap :=
  let si :=
    match mapLookup sns svc.Name with
    | some si => si
    | none =>
      { Port := IntOrString.int svc.Port
        RawVisibilities := []
        RewriteHost := ""
        HasPath := hasPath }
  mapInsert sns svc.Name
    { si with RawVisibilities := ssInsert si.RawVisibilities vis }

/-- Lines 78–97: fold one route of a previous proxy into the desired map. -/
def routeStep (vis : String) (sns : SNSMap) (route : ProxyRoute) : SNSMap :=
  route.Services.foldl (svcStep vis (hasPathOfRoute route)) sns

/-- Lines 59–98: fold one previous `HTTPProxy` into the desired map — skip
it when its status is not `"valid"` or no visibility class matches its class
annotation. -/
def proxyStep (classes : List (String × String)) (sns : SNSMap)
    (proxy : HTTPProxy) : SNSMap :=
  if proxy.Status.CurrentStatus ≠ "valid" then sns
  else
    let vis := lookupVis classes (lookupDefault proxy.Annotations ClassKey)
    if vis = "" then sns
    else proxy.Spec.Routes.foldl (routeStep vis) sns

/-- Lines 56–98: the combined desired map — the map from the current ingress
spec (`sns0 = ServiceNames(ctx, ing)`, computed outside `src/` and taken
here as an input) merged with the previous committed state. -/
def mergePrevious (classes : List (String × String)) (sns0 : SNSMap)
    (previousState : List HTTPProxy) : SNSMap :=
  previousState.foldl (proxyStep classes) sns0

/-- The Go zero value of `ServiceInfo` (value of a map read at a missing
key). -/
def zeroServiceInfo : ServiceInfo :=
  { Port := IntOrString.int 0, RawVisibilities := [], RewriteHost := ""
    HasPath := false }

/-- Lines 100–106: the deterministic ordering of the service names —
insert every key into a `sets.String` and list it sorted. -/
def sortedKeys (sns : SNSMap) : List String :=
  sortStrings ((mapKeys sns).foldl ssInsert [])

/-- Line 117: the synthetic probe host
`%s.gen-%d.%s.%s.net-contour.invalid`. -/
def probeHost (name : String) (gen : Int) (ingName ingNs : String) : String :=
  name ++ ".gen-" ++ toString gen ++ "." ++ ingName ++ "." ++ ingNs ++
    ".net-contour.invalid"

/-- Lines 116–132: the probe rule emitted for one (service, visibility)
pair. -/
def mkProbeRule (ing : ParentMeta) (name : String) (si : ServiceInfo)
    (vis : String) : IngressRule :=
  { Hosts := [probeHost name ing.Generation ing.Name ing.Namespace]
    Visibility := vis
    HTTP := some
      { Paths := [{ RewriteHost := si.RewriteHost
                    Splits := [{ Backend := { ServiceName := name
                                              ServiceNamespace := ing.Namespace
                                              ServicePort := si.Port }
                                 Percent := 100 }] }] } }

/-- Lines 109–134: emit the probe rules, walking the sorted service names,
skipping services flagged `HasPath`, one rule per visibility. -/
def probeRules (ing : ParentMeta) (sns : SNSMap) (l : List String) :
    List IngressRule :=
  l.foldl
    (fun rules name =>
      let si := (mapLookup sns name).getD zeroServiceInfo
      if si.HasPath then rules
      else rules ++ si.Visibilities.map (mkProbeRule ing name si))
    []

/-- Lines 38–137: `MakeEndpointProbeIngress`.  `classes` is the
`config.FromContext(ctx).Contour.VisibilityClasses` map (association-list
order models one map-iteration order); `sns0` is `ServiceNames(ctx, ing)`,
the desired backend-service map computed from the current ingress spec by
code outside `src/`. -/
def MakeEndpointProbeIngress (classes : List (String × String))
    (ing : ParentMeta) (sns0 : SNSMap) (previousState : List HTTPProxy) :
    Ingress :=
  let sns := mergePrevious classes sns0 previousState
  { ObjectMeta :=
      { Name := EndpointProbeIngressName ing
        Namespace := ing.Namespace
        Labels := ing.Labels
        Annotations := unionMaps ing.Annotations [(EndpointsProbeKey, "true")]
        OwnerReferences := [NewControllerRef ing] }
    Spec :=
      { HTTPOption := "Enabled"
        Rules := probeRules ing sns (sortedKeys sns) } }

/-- The rules contributed by one service name of the sorted order (the body
of the loop of lines 109–134, as a list). -/
def emitFor (ing : ParentMeta) (sns : SNSMap) (name : String) :
    List IngressRule :=
  let si := (mapLookup sns name).getD zeroServiceInfo
  if si.HasPath then [] else si.Visibilities.map (mkProbeRule ing name si)

/-- The backend service a probe rule targets: the service name of the first
split of its first path. -/
def ruleService (r : IngressRule) : String :=
  (((r.HTTP.getD ⟨[]⟩).Paths.headD ⟨"", []⟩).Splits.headD
    ⟨⟨"", "", IntOrString.int 0⟩, 0⟩).Backend.ServiceName

/-- The (service, visibility) pairs of a rule list, in emission order. -/
def rulePairs (rules : List IngressRule) : List (String × String) :=
  rules.map (fun r => (ruleService r, r.Visibility))

/-- Well-formedness of a desired map as produced by Go: every entry's
visibility set is duplicate-free (it is a `sets.String`). -/
abbrev WFMap (m : SNSMap) : Prop :=
  ∀ name si, mapLookup m name = some si → si.RawVisibilities.Nodup

/-- The entry of `name` persists with its port, rewrite host and path flag,
its visibility set only growing beyond `si0`. -/
abbrev KeepsEntry (name : String) (si0 : ServiceInfo) (m : SNSMap) : Prop :=
  ∃ si, mapLookup m name = some si ∧ si.Port = si0.Port ∧
    si.HasPath = si0.HasPath ∧ si.RewriteHost = si0.RewriteHost ∧
    si0.RawVisibilities ⊆ si.RawVisibilities

/-- The map records visibility `v` for service `name`. -/
abbrev VisIn (name v : String) (m : SNSMap) : Prop :=
  ∃ si, mapLookup m name = some si ∧ v ∈ si.RawVisibilities

/-! ### Concrete fixtures used by witnesses and counterexamples -/

/-- A small parent ingress. -/
def ingFix : ParentMeta := ⟨"ing", "ns", 1, [], []⟩

/-- One visibility class mapped to the class marker `"x"`. -/
def cfgFix : List (String × String) := [("ext", "x")]

/-- Two distinct visibility classes with distinct class markers. -/
def cfgInj : List (String × String) := [("a", "x"), ("b", "y")]

/-- Two visibility classes sharing one class marker, in one iteration
order… -/
def cfgDupA : List (String × String) := [("a", "x"), ("b", "x")]

/-- …and in the other iteration order of the same map. -/
def cfgDupB : List (String × String) := [("b", "x"), ("a", "x")]

/-- A valid previous proxy whose single route has a path condition and
references `svc`. -/
def proxyWithPath : HTTPProxy :=
  { Annotations := [(ClassKey, "x")]
    Spec := { Routes := [{ Conditions := [{ PfxMatch := "/p" }]
                           Services := [{ Name := "svc", Port := 80 }] }] }
    Status := { CurrentStatus := "valid" } }

/-- A valid previous proxy whose single route has no conditions and
references `svc`. -/
def proxyNoPath : HTTPProxy :=
  { Annotations := [(ClassKey, "x")]
    Spec := { Routes := [{ Conditions := []
                           Services := [{ Name := "svc", Port := 80 }] }] }
    Status := { CurrentStatus := "valid" } }

/-- A previous proxy whose status is not `"valid"`. -/
def proxyInvalid : HTTPProxy :=
  { Annotations := [(ClassKey, "x")]
    Spec := { Routes := [{ Conditions := []
                           Services := [{ Name := "other", Port := 81 }] }] }
    Status := { CurrentStatus := "invalid" } }

/-- A desired map holding `svc` (port 80, visibility `ext`, no path). -/
def snsSvc : SNSMap := [("svc", ⟨IntOrString.int 80, ["ext"], "", false⟩)]

/-- A desired map holding `svc` with two recorded visibilities. -/
def snsTwoVis : SNSMap := [("svc", ⟨IntOrString.int 80, ["a", "b"], "", false⟩)]

/-- A desired map holding a path-flagged `psvc` next to plain `svc`. -/
def snsWithPathSvc : SNSMap :=
  [("psvc", ⟨IntOrString.int 81, ["ext"], "", true⟩),
   ("svc", ⟨IntOrString.int 80, ["ext"], "", false⟩)]

/-! ### Generic fold and map lemmas -/

theorem foldl_preserve {α β : Type} {P : β → Prop} (f : β → α → β)
    (h : ∀ b a, P b → P (f b a)) :
    ∀ (l : List α) (b : β), P b → P (l.foldl f b) := by
  intro l
  induction l with
  | nil => intro b hb; exact hb
  | cons a t ih => intro b hb; exact ih (f b a) (h b a hb)

theorem foldl_append_split {α β : Type} (f : β → α → β) (b : β) (l₁ : List α)
    (a : α) (l₂ : List α) :
    (l₁ ++ a :: l₂).foldl f b = l₂.foldl f (f (l₁.foldl f b) a) := by
  rw [List.foldl_append]
  rfl

theorem mapLookup_mapInsert_self {α : Type} (m : List (String × α)) (k : String)
    (v : α) : mapLookup (mapInsert m k v) k = some v := by
  induction m with
  | nil => simp [mapInsert, mapLookup]
  | cons p rest ih =>
    by_cases h : p.1 = k
    · simp [mapInsert, mapLookup, h]
    · simp [mapInsert, mapLookup, h, ih]

theorem mapLookup_mapInsert_ne {α : Type} (m : List (String × α))
    (k k' : String) (v : α) (h : k' ≠ k) :
    mapLookup (mapInsert m k v) k' = mapLookup m k' := by
  induction m with
  | nil => simp [mapInsert, mapLookup, Ne.symm h]
  | cons p rest ih =>
    obtain ⟨a, b⟩ := p
    by_cases h1 : a = k
    · subst h1
      simp [mapInsert, mapLookup, Ne.symm h]
    · by_cases h2 : a = k'
      · simp [mapInsert, mapLookup, h1, h2, h]
      · simp [mapInsert, mapLookup, h1, h2, ih]

theorem mapLookup_isSome_of_mem_keys {α : Type} {m : List (String × α)}
    {k : String} (h : k ∈ mapKeys m) : ∃ v, mapLookup m k = some v := by
  induction m with
  | nil => simp [mapKeys] at h
  | cons p rest ih =>
    obtain ⟨a, b⟩ := p
    by_cases h1 : a = k
    · exact ⟨b, by simp [mapLookup, h1]⟩
    · have hk : k ∈ mapKeys rest := by
        simp [mapKeys] at h ⊢
        rcases h with h | h
        · exact absurd h.symm h1
        · exact h
      rcases ih hk with ⟨v, hv⟩
      exact ⟨v, by simp [mapLookup, h1, hv]⟩

theorem mem_keys_of_mapLookup {α : Type} {m : List (String × α)} {k : String}
    {v : α} (h : mapLookup m k = some v) : k ∈ mapKeys m := by
  induction m with
  | nil => simp [mapLookup] at h
  | cons p rest ih =>
    obtain ⟨a, _b⟩ := p
    by_cases h1 : a = k
    · simp [mapKeys, h1]
    · simp only [mapLookup, if_neg h1] at h
      simp only [mapKeys, List.map_cons]
      exact List.mem_cons_of_mem _ (ih h)

/-! ### `sets.String` lemmas -/

theorem mem_ssInsert {l : List String} {s a : String} :
    a ∈ ssInsert l s ↔ a = s ∨ a ∈ l := by
  unfold ssInsert
  by_cases h : s ∈ l
  · simp only [if_pos h]
    constructor
    · exact Or.inr
    · rintro (rfl | ha)
      · exact h
      · exact ha
  · simp [if_neg h]

theorem self_mem_ssInsert (l : List String) (s : String) : s ∈ ssInsert l s :=
  mem_ssInsert.mpr (Or.inl rfl)

theorem subset_ssInsert (l : List String) (s : String) : l ⊆ ssInsert l s :=
  fun _ ha => mem_ssInsert.mpr (Or.inr ha)

theorem nodup_ssInsert {l : List String} (s : String) (h : l.Nodup) :
    (ssInsert l s).Nodup := by
  unfold ssInsert
  by_cases hs : s ∈ l
  · simpa [if_pos hs]
  · simpa [if_neg hs, List.nodup_cons] using ⟨hs, h⟩

theorem mem_foldl_ssInsert {l : List String} {acc : List String} {x : String} :
    x ∈ l.foldl ssInsert acc ↔ x ∈ acc ∨ x ∈ l := by
  induction l generalizing acc with
  | nil => simp
  | cons a t ih =>
    simp only [List.foldl_cons, ih, mem_ssInsert, List.mem_cons]
    tauto

theorem nodup_foldl_ssInsert (l : List String) {acc : List String}
    (h : acc.Nodup) : (l.foldl ssInsert acc).Nodup :=
  foldl_preserve ssInsert (fun b a hb => nodup_ssInsert a hb) l acc h

theorem mem_sortStrings {l : List String} {x : String} :
    x ∈ sortStrings l ↔ x ∈ l :=
  List.mem_insertionSort strLe

theorem nodup_sortStrings {l : List String} (h : l.Nodup) :
    (sortStrings l).Nodup :=
  (List.perm_insertionSort strLe l).nodup_iff.mpr h

theorem sorted_sortStrings (l : List String) :
    List.Sorted strLe (sortStrings l) :=
  List.sorted_insertionSort strLe l

theorem not_lt_nil_char (l : List Char) : ¬ l < ([] : List Char) := nofun

theorem nil_lt_cons_char (d : Char) (ds : List Char) :
    ([] : List Char) < d :: ds :=
  List.Lex.nil

theorem cons_lt_cons_iff {c d : Char} {cs ds : List Char} :
    (c :: cs) < (d :: ds) ↔ c < d ∨ (c = d ∧ cs < ds) := by
  constructor
  · intro h
    cases h with
    | rel h1 => exact Or.inl h1
    | cons h1 => exact Or.inr ⟨rfl, h1⟩
  · rintro (h | ⟨rfl, h1⟩)
    · exact List.Lex.rel h
    · exact List.Lex.cons h1

theorem charListLeb_iff_not_lt (a : List Char) :
    ∀ b, charListLeb a b = true ↔ ¬ b < a := by
  induction a with
  | nil =>
    intro b
    exact iff_of_true rfl (not_lt_nil_char b)
  | cons c cs ih =>
    intro b
    cases b with
    | nil =>
      refine iff_of_false (by simp [charListLeb]) ?_
      exact fun hn => hn (nil_lt_cons_char c cs)
    | cons d ds =>
      by_cases h1 : c < d
      · refine iff_of_true (by simp [charListLeb, h1]) ?_
        intro h
        rcases cons_lt_cons_iff.mp h with h2 | ⟨h2, _⟩
        · exact absurd h1 (lt_asymm h2)
        · exact absurd (h2 ▸ h1) (lt_irrefl c)
      · by_cases h2 : d < c
        · refine iff_of_false (by simp [charListLeb, h1, h2]) ?_
          exact fun hn => hn (cons_lt_cons_iff.mpr (Or.inl h2))
        · have hdc : d = c := le_antisymm (not_lt.mp h1) (not_lt.mp h2)
          subst hdc
          have heq : charListLeb (d :: cs) (d :: ds) = charListLeb cs ds := by
            simp [charListLeb, lt_irrefl]
          rw [heq, ih ds]
          constructor
          · intro h hlt
            rcases cons_lt_cons_iff.mp hlt with h3 | ⟨_, h3⟩
            · exact lt_irrefl d h3
            · exact h h3
          · intro h hlt
            exact h (cons_lt_cons_iff.mpr (Or.inr ⟨rfl, hlt⟩))

theorem strLe_iff_le (a b : String) : strLe a b ↔ a ≤ b := by
  rw [String.le_iff_toList_le, ← not_lt]
  exact charListLeb_iff_not_lt a.data b.data

/-! ### `sortedKeys` lemmas -/

theorem mem_sortedKeys {m : SNSMap} {x : String} :
    x ∈ sortedKeys m ↔ x ∈ mapKeys m := by
  unfold sortedKeys
  rw [mem_sortStrings, mem_foldl_ssInsert]
  simp

theorem nodup_sortedKeys (m : SNSMap) : (sortedKeys m).Nodup :=
  nodup_sortStrings (nodup_foldl_ssInsert _ List.nodup_nil)

theorem sorted_sortedKeys (m : SNSMap) :
    List.Sorted strLe (sortedKeys m) :=
  sorted_sortStrings _

theorem sorted_le_sortedKeys (m : SNSMap) :
    List.Sorted (· ≤ ·) (sortedKeys m) :=
  (sorted_sortedKeys m).imp fun h => (strLe_iff_le _ _).mp h

/-! ### Characterization of the emitted rules -/

theorem probeRules_foldl_eq (ing : ParentMeta) (sns : SNSMap) :
    ∀ (l : List String) (init : List IngressRule),
    (l.foldl
      (fun rules name =>
        let si := (mapLookup sns name).getD zeroServiceInfo
        if si.HasPath then rules
        else rules ++ si.Visibilities.map (mkProbeRule ing name si)) init)
      = init ++ l.flatMap (emitFor ing sns) := by
  intro l
  induction l with
  | nil => intro init; simp
  | cons a t ih =>
    intro init
    simp only [List.foldl_cons, List.flatMap_cons]
    rw [ih, ← List.append_assoc]
    congr 1
    rw [emitFor]
    by_cases h : ((mapLookup sns a).getD zeroServiceInfo).HasPath
    · simp [h]
    · simp [h]

theorem probeRules_eq_flatMap (ing : ParentMeta) (sns : SNSMap)
    (l : List String) :
    probeRules ing sns l = l.flatMap (emitFor ing sns) := by
  have h := probeRules_foldl_eq ing sns l []
  simpa [probeRules] using h

theorem rules_eq_flatMap (classes : List (String × String)) (ing : ParentMeta)
    (sns0 : SNSMap) (prev : List HTTPProxy) :
    (MakeEndpointProbeIngress classes ing sns0 prev).Spec.Rules =
      (sortedKeys (mergePrevious classes sns0 prev)).flatMap
        (emitFor ing (mergePrevious classes sns0 prev)) :=
  probeRules_eq_flatMap ing _ _

theorem mem_rules_iff (classes : List (String × String)) (ing : ParentMeta)
    (sns0 : SNSMap) (prev : List HTTPProxy) (r : IngressRule) :
    r ∈ (MakeEndpointProbeIngress classes ing sns0 prev).Spec.Rules ↔
      ∃ name si,
        mapLookup (mergePrevious classes sns0 prev) name = some si ∧
        si.HasPath = false ∧
        ∃ v ∈ si.Visibilities, r = mkProbeRule ing name si v := by
  rw [rules_eq_flatMap, List.mem_flatMap]
  constructor
  · rintro ⟨name, hname, hr⟩
    have hk : name ∈ mapKeys (mergePrevious classes sns0 prev) :=
      mem_sortedKeys.mp hname
    rcases mapLookup_isSome_of_mem_keys hk with ⟨si, hsi⟩
    rw [emitFor, hsi] at hr
    by_cases hp : si.HasPath
    · rw [Option.getD_some, if_pos hp] at hr
      simp at hr
    · rw [Option.getD_some, if_neg hp] at hr
      rcases List.mem_map.mp hr with ⟨v, hv, rfl⟩
      exact ⟨name, si, hsi, Bool.eq_false_iff.mpr hp, v, hv, rfl⟩
  · rintro ⟨name, si, hsi, hp, v, hv, rfl⟩
    refine ⟨name, mem_sortedKeys.mpr (mem_keys_of_mapLookup hsi), ?_⟩
    rw [emitFor, hsi, Option.getD_some, hp]
    simpa using List.mem_map_of_mem (mkProbeRule ing name si) hv

theorem mapLookup_unionMaps_single (a : List (String × String))
    (k v : String) : mapLookup (unionMaps a [(k, v)]) k = some v := by
  show mapLookup (mapInsert a k v) k = some v
  exact mapLookup_mapInsert_self a k v

/-! ### Lemmas about the visibility reverse lookup -/

theorem foldlVis_no_match (ann : String) :
    ∀ (c : List (String × String)) (init : String),
    (∀ q ∈ c, q.2 ≠ ann) →
    (c.foldl (fun vis vc => if vc.2 = ann then vc.1 else vis) init) = init := by
  intro c
  induction c with
  | nil => intro init _; rfl
  | cons q t ih =>
    intro init hq
    simp only [List.foldl_cons]
    rw [if_neg (hq q (List.mem_cons_self q t))]
    exact ih init fun p hp => hq p (List.mem_cons_of_mem q hp)

theorem lookupVis_of_no_match {classes : List (String × String)}
    {ann : String} (h : ∀ q ∈ classes, q.2 ≠ ann) :
    lookupVis classes ann = "" :=
  foldlVis_no_match ann classes "" h

theorem proxyStep_skip {classes : List (String × String)} {proxy : HTTPProxy}
    (h : proxy.Status.CurrentStatus ≠ "valid" ∨
         ∀ q ∈ classes, q.2 ≠ lookupDefault proxy.Annotations ClassKey) :
    ∀ m : SNSMap, proxyStep classes m proxy = m := by
  intro m
  rcases h with h | h
  · simp [proxyStep, h]
  · have hv : lookupVis classes (lookupDefault proxy.Annotations ClassKey)
        = "" := lookupVis_of_no_match h
    by_cases hs : proxy.Status.CurrentStatus ≠ "valid"
    · simp [proxyStep, hs]
    · simp [proxyStep, hs, hv]

/-! ### Claim theorems -/

/-- **C1** (counterexample): even on an input whose combined desired service
map is empty, `MakeEndpointProbeIngress` does not produce "none": it returns
a full probe-marked child ingress object (probe annotation set, owner
reference to the parent) — only its rule list is empty. -/
theorem probe_object_despite_empty_map :
    mergePrevious cfgFix [] [] = [] ∧
    MakeEndpointProbeIngress cfgFix ingFix [] [] =
      ⟨⟨"ing--ep", "ns", [], [(EndpointsProbeKey, "true")], [⟨"ing", true⟩]⟩,
       ⟨"Enabled", []⟩⟩ := by
  exact ⟨rfl, by decide⟩

/-- **C1** (amended): when the combined desired service map (current ingress
spec merged with previous committed state) is empty,
`MakeEndpointProbeIngress` emits no probe rule at all — the returned child
ingress has an empty rule list, so the generation proceeds immediately; the
function still returns the (probe-marked) child object rather than none. -/
theorem rules_empty_of_merge_empty (classes : List (String × String))
    (ing : ParentMeta) (sns0 : SNSMap) (prev : List HTTPProxy)
    (h : mergePrevious classes sns0 prev = []) :
    (MakeEndpointProbeIngress classes ing sns0 prev).Spec.Rules = [] := by
  show probeRules ing (mergePrevious classes sns0 prev)
    (sortedKeys (mergePrevious classes sns0 prev)) = []
  rw [h]
  rfl

/-- Witness for `rules_empty_of_merge_empty` at a concrete input (one
invalid previous proxy, empty current spec). -/
theorem rules_empty_of_merge_empty_witness :
    mergePrevious cfgFix [] [proxyInvalid] = [] ∧
    (MakeEndpointProbeIngress cfgFix ingFix [] [proxyInvalid]).Spec.Rules
      = [] :=
  ⟨by decide,
   rules_empty_of_merge_empty cfgFix ingFix [] [proxyInvalid] (by decide)⟩

/-- **C7**: a previous `HTTPProxy` whose status is not `"valid"`, or whose
class annotation matches no configured visibility class, contributes nothing
to the output: deleting it from the previous state leaves the synthesized
probe ingress unchanged, and the remaining objects are still processed. -/
theorem skipped_proxy_contributes_nothing (classes : List (String × String))
    (ing : ParentMeta) (sns0 : SNSMap) (p1 : List HTTPProxy)
    (proxy : HTTPProxy) (p2 : List HTTPProxy)
    (h : proxy.Status.CurrentStatus ≠ "valid" ∨
         ∀ q ∈ classes, q.2 ≠ lookupDefault proxy.Annotations ClassKey) :
    MakeEndpointProbeIngress classes ing sns0 (p1 ++ proxy :: p2) =
      MakeEndpointProbeIngress classes ing sns0 (p1 ++ p2) := by
  have hm : mergePrevious classes sns0 (p1 ++ proxy :: p2) =
      mergePrevious classes sns0 (p1 ++ p2) := by
    unfold mergePrevious
    rw [foldl_append_split, proxyStep_skip h, List.foldl_append]
  simp only [MakeEndpointProbeIngress, hm]

/-- Witness for `skipped_proxy_contributes_nothing`: dropping a concrete
invalid proxy from the middle of the previous state leaves the output
unchanged. -/
theorem skipped_proxy_contributes_nothing_witness :
    (proxyInvalid.Status.CurrentStatus ≠ "valid" ∨
      ∀ q ∈ cfgFix, q.2 ≠ lookupDefault proxyInvalid.Annotations ClassKey) ∧
    MakeEndpointProbeIngress cfgFix ingFix snsSvc
        ([] ++ proxyInvalid :: [proxyNoPath]) =
      MakeEndpointProbeIngress cfgFix ingFix snsSvc ([] ++ [proxyNoPath]) :=
  ⟨Or.inl (by decide),
   skipped_proxy_contributes_nothing cfgFix ingFix snsSvc [] proxyInvalid
     [proxyNoPath] (Or.inl (by decide))⟩

/-- **C8**: every output of `MakeEndpointProbeIngress` carries the
probe-only marker annotation (`EndpointsProbeKey` set to `"true"`, winning
over any parent annotation) and a controller owner reference to the parent
ingress. -/
theorem probe_marker_and_owner (classes : List (String × String))
    (ing : ParentMeta) (sns0 : SNSMap) (prev : List HTTPProxy) :
    mapLookup
        (MakeEndpointProbeIngress classes ing sns0 prev).ObjectMeta.Annotations
        EndpointsProbeKey = some "true" ∧
      (MakeEndpointProbeIngress classes ing sns0 prev).ObjectMeta.OwnerReferences
        = [{ Name := ing.Name, Controller := true }] :=
  ⟨mapLookup_unionMaps_single ing.Annotations EndpointsProbeKey "true", rfl⟩

theorem foldlVis_all_match (ann v : String) :
    ∀ (c : List (String × String)),
    (∀ q ∈ c, q.2 = ann → q.1 = v) → (∃ q ∈ c, q.2 = ann) →
    ∀ init,
    (c.foldl (fun vis vc => if vc.2 = ann then vc.1 else vis) init) = v := by
  intro c
  induction c with
  | nil =>
    rintro _ ⟨q, hq, _⟩ _
    simp at hq
  | cons q t ih =>
    intro hall hex init
    simp only [List.foldl_cons]
    by_cases ht : ∃ p ∈ t, p.2 = ann
    · exact ih (fun p hp hpa => hall p (List.mem_cons_of_mem q hp) hpa) ht _
    · have hq : q.2 = ann := by
        rcases hex with ⟨p, hp, hpa⟩
        rcases List.mem_cons.mp hp with rfl | hp
        · exact hpa
        · exact absurd ⟨p, hp, hpa⟩ ht
      rw [if_pos hq]
      have hnm : ∀ p ∈ t, p.2 ≠ ann := fun p hp hpa => ht ⟨p, hp, hpa⟩
      rw [foldlVis_no_match ann t q.1 hnm]
      exact hall q (List.mem_cons_self q t) hq

theorem lookupVis_congr {c1 c2 : List (String × String)} (ann : String)
    (hperm : List.Perm c1 c2)
    (hfun : ∀ p ∈ c1, ∀ q ∈ c1, p.2 = q.2 → p.1 = q.1) :
    lookupVis c1 ann = lookupVis c2 ann := by
  by_cases hex : ∃ p ∈ c1, p.2 = ann
  · rcases hex with ⟨p, hp, hpa⟩
    have h1 : lookupVis c1 ann = p.1 :=
      foldlVis_all_match ann p.1 c1
        (fun q hq hqa => hfun q hq p hp (hqa.trans hpa.symm)) ⟨p, hp, hpa⟩ ""
    have h2 : lookupVis c2 ann = p.1 :=
      foldlVis_all_match ann p.1 c2
        (fun q hq hqa =>
          hfun q (hperm.mem_iff.mpr hq) p hp (hqa.trans hpa.symm))
        ⟨p, hperm.mem_iff.mp hp, hpa⟩ ""
    rw [h1, h2]
  · push_neg at hex
    rw [lookupVis_of_no_match hex,
      lookupVis_of_no_match fun q hq => hex q (hperm.mem_iff.mpr hq)]

theorem proxyStep_congr {c1 c2 : List (String × String)}
    (h : ∀ ann, lookupVis c1 ann = lookupVis c2 ann) :
    proxyStep c1 = proxyStep c2 := by
  funext m proxy
  simp only [proxyStep, h]

theorem make_congr_classes {c1 c2 : List (String × String)} {ing : ParentMeta}
    {sns0 : SNSMap} {prev : List HTTPProxy}
    (h : ∀ ann, lookupVis c1 ann = lookupVis c2 ann) :
    MakeEndpointProbeIngress c1 ing sns0 prev =
      MakeEndpointProbeIngress c2 ing sns0 prev := by
  simp only [MakeEndpointProbeIngress, mergePrevious, proxyStep_congr h]

/-- **C2** (counterexample): with two visibility classes mapped to the same
proxy-native annotation string, two iteration orders of the same
visibility-class map (the two permutations of the association list) make
`MakeEndpointProbeIngress` produce different outputs — the probe rule's
visibility flips between the two classes, because the reverse lookup is a
last-match-wins scan of a Go map whose iteration order is not fixed. -/
theorem make_deterministic_cex :
    List.Perm cfgDupA cfgDupB ∧
    MakeEndpointProbeIngress cfgDupA ingFix [] [proxyNoPath] ≠
      MakeEndpointProbeIngress cfgDupB ingFix [] [proxyNoPath] :=
  ⟨by decide, by decide⟩

/-- **C2** (amended): `MakeEndpointProbeIngress` is deterministic — its
output is independent of the iteration order of the visibility-class map —
for every fixed (ingress, desired map, previous proxies) input, provided no
two distinct visibility classes map to the same proxy-native annotation
string; two runs seeing any two orders (permutations) of the class map
produce identical output.  (When two classes share an annotation string the
output is order-dependent, see the counterexample.) -/
theorem make_deterministic (c1 c2 : List (String × String)) (ing : ParentMeta)
    (sns0 : SNSMap) (prev : List HTTPProxy) (hperm : List.Perm c1 c2)
    (hinj : ∀ p ∈ c1, ∀ q ∈ c1, p.2 = q.2 → p.1 = q.1) :
    MakeEndpointProbeIngress c1 ing sns0 prev =
      MakeEndpointProbeIngress c2 ing sns0 prev :=
  make_congr_classes fun ann => lookupVis_congr ann hperm hinj

/-- Witness for `make_deterministic`: a two-class configuration with
distinct annotation strings, reordered, gives identical output. -/
theorem make_deterministic_witness :
    (List.Perm cfgInj [("b", "y"), ("a", "x")] ∧
      ∀ p ∈ cfgInj, ∀ q ∈ cfgInj, p.2 = q.2 → p.1 = q.1) ∧
    MakeEndpointProbeIngress cfgInj ingFix snsSvc [proxyNoPath] =
      MakeEndpointProbeIngress [("b", "y"), ("a", "x")] ingFix snsSvc
        [proxyNoPath] :=
  ⟨⟨by decide, by decide⟩,
   make_deterministic cfgInj [("b", "y"), ("a", "x")] ingFix snsSvc
     [proxyNoPath] (by decide) (by decide)⟩

/-! ### Evolution of single map entries under the merge -/

theorem mapLookup_svcStep_ne (vis : String) (hp : Bool) (m : SNSMap)
    (svc : ProxyService) (name : String) (h : name ≠ svc.Name) :
    mapLookup (svcStep vis hp m svc) name = mapLookup m name := by
  unfold svcStep
  exact mapLookup_mapInsert_ne _ _ _ _ h

theorem mapLookup_svcStep_self_some (vis : String) (hp : Bool) (m : SNSMap)
    (svc : ProxyService) (si : ServiceInfo)
    (hsi : mapLookup m svc.Name = some si) :
    mapLookup (svcStep vis hp m svc) svc.Name =
      some { si with RawVisibilities := ssInsert si.RawVisibilities vis } := by
  unfold svcStep
  rw [hsi]
  exact mapLookup_mapInsert_self _ _ _

theorem mapLookup_svcStep_self_none (vis : String) (hp : Bool) (m : SNSMap)
    (svc : ProxyService) (hsi : mapLookup m svc.Name = none) :
    mapLookup (svcStep vis hp m svc) svc.Name =
      some { Port := IntOrString.int svc.Port
             RawVisibilities := ssInsert [] vis
             RewriteHost := ""
             HasPath := hp } := by
  unfold svcStep
  rw [hsi]
  exact mapLookup_mapInsert_self _ _ _

theorem svcStep_keeps (vis : String) (hp : Bool) (name : String)
    (si0 : ServiceInfo) (m : SNSMap) (svc : ProxyService)
    (h : KeepsEntry name si0 m) : KeepsEntry name si0 (svcStep vis hp m svc) := by
  obtain ⟨si, hsi, hport, hpath, hrw, hsub⟩ := h
  by_cases hn : name = svc.Name
  · subst hn
    exact ⟨{ si with RawVisibilities := ssInsert si.RawVisibilities vis },
      mapLookup_svcStep_self_some vis hp m svc si hsi, hport, hpath, hrw,
      hsub.trans (subset_ssInsert _ _)⟩
  · exact ⟨si, by rw [mapLookup_svcStep_ne vis hp m svc name hn]; exact hsi,
      hport, hpath, hrw, hsub⟩

theorem svcStep_visIn (vis : String) (hp : Bool) (name v : String)
    (m : SNSMap) (svc : ProxyService) (h : VisIn name v m) :
    VisIn name v (svcStep vis hp m svc) := by
  obtain ⟨si, hsi, hv⟩ := h
  by_cases hn : name = svc.Name
  · subst hn
    exact ⟨{ si with RawVisibilities := ssInsert si.RawVisibilities vis },
      mapLookup_svcStep_self_some vis hp m svc si hsi,
      subset_ssInsert _ _ hv⟩
  · exact ⟨si, by rw [mapLookup_svcStep_ne vis hp m svc name hn]; exact hsi, hv⟩

theorem svcStep_establishes (vis : String) (hp : Bool) (m : SNSMap)
    (svc : ProxyService) : VisIn svc.Name vis (svcStep vis hp m svc) := by
  cases hsi : mapLookup m svc.Name with
  | some si =>
    exact ⟨{ si with RawVisibilities := ssInsert si.RawVisibilities vis },
      mapLookup_svcStep_self_some vis hp m svc si hsi,
      self_mem_ssInsert _ _⟩
  | none =>
    exact ⟨{ Port := IntOrString.int svc.Port
             RawVisibilities := ssInsert [] vis
             RewriteHost := ""
             HasPath := hp },
      mapLookup_svcStep_self_none vis hp m svc hsi, self_mem_ssInsert [] vis⟩

theorem svcStep_wf (vis : String) (hp : Bool) (m : SNSMap)
    (svc : ProxyService) (h : WFMap m) : WFMap (svcStep vis hp m svc) := by
  intro name si hsi
  by_cases hn : name = svc.Name
  · subst hn
    cases hm : mapLookup m svc.Name with
    | some si0 =>
      rw [mapLookup_svcStep_self_some vis hp m svc si0 hm] at hsi
      cases hsi
      exact nodup_ssInsert vis (h svc.Name si0 hm)
    | none =>
      rw [mapLookup_svcStep_self_none vis hp m svc hm] at hsi
      cases hsi
      exact nodup_ssInsert vis List.nodup_nil
  · rw [mapLookup_svcStep_ne vis hp m svc name hn] at hsi
    exact h name si hsi

/-! ### Lifting the entry lemmas through routes, proxies and the merge -/

theorem routeStep_keeps (vis : String) (name : String) (si0 : ServiceInfo)
    (m : SNSMap) (route : ProxyRoute) (h : KeepsEntry name si0 m) :
    KeepsEntry name si0 (routeStep vis m route) :=
  foldl_preserve _ (fun b a hb => svcStep_keeps vis _ name si0 b a hb)
    route.Services m h

theorem routeStep_visIn (vis : String) (name v : String) (m : SNSMap)
    (route : ProxyRoute) (h : VisIn name v m) :
    VisIn name v (routeStep vis m route) :=
  foldl_preserve _ (fun b a hb => svcStep_visIn vis _ name v b a hb)
    route.Services m h

theorem routeStep_wf (vis : String) (m : SNSMap) (route : ProxyRoute)
    (h : WFMap m) : WFMap (routeStep vis m route) :=
  foldl_preserve _ (fun b a hb => svcStep_wf vis _ b a hb) route.Services m h

theorem proxyStep_keeps (classes : List (String × String)) (name : String)
    (si0 : ServiceInfo) (m : SNSMap) (proxy : HTTPProxy)
    (h : KeepsEntry name si0 m) :
    KeepsEntry name si0 (proxyStep classes m proxy) := by
  unfold proxyStep
  by_cases hs : proxy.Status.CurrentStatus ≠ "valid"
  · simpa [hs] using h
  · simp only [hs, if_false]
    by_cases hv : lookupVis classes (lookupDefault proxy.Annotations ClassKey)
        = ""
    · simpa [hv] using h
    · simp only [hv, if_false]
      exact foldl_preserve _ (fun b a hb => routeStep_keeps _ name si0 b a hb)
        proxy.Spec.Routes m h

theorem proxyStep_visIn (classes : List (String × String)) (name v : String)
    (m : SNSMap) (proxy : HTTPProxy) (h : VisIn name v m) :
    VisIn name v (proxyStep classes m proxy) := by
  unfold proxyStep
  by_cases hs : proxy.Status.CurrentStatus ≠ "valid"
  · simpa [hs] using h
  · simp only [hs, if_false]
    by_cases hv : lookupVis classes (lookupDefault proxy.Annotations ClassKey)
        = ""
    · simpa [hv] using h
    · simp only [hv, if_false]
      exact foldl_preserve _ (fun b a hb => routeStep_visIn _ name v b a hb)
        proxy.Spec.Routes m h

theorem proxyStep_wf (classes : List (String × String)) (m : SNSMap)
    (proxy : HTTPProxy) (h : WFMap m) : WFMap (proxyStep classes m proxy) := by
  unfold proxyStep
  by_cases hs : proxy.Status.CurrentStatus ≠ "valid"
  · simpa [hs] using h
  · simp only [hs, if_false]
    by_cases hv : lookupVis classes (lookupDefault proxy.Annotations ClassKey)
        = ""
    · simpa [hv] using h
    · simp only [hv, if_false]
      exact foldl_preserve _ (fun b a hb => routeStep_wf _ b a hb)
        proxy.Spec.Routes m h

theorem mergePrevious_keeps (classes : List (String × String))
    (sns0 : SNSMap) (prev : List HTTPProxy) (name : String)
    (si0 : ServiceInfo) (h : KeepsEntry name si0 sns0) :
    KeepsEntry name si0 (mergePrevious classes sns0 prev) :=
  foldl_preserve _ (fun b a hb => proxyStep_keeps classes name si0 b a hb)
    prev sns0 h

theorem mergePrevious_wf (classes : List (String × String)) (sns0 : SNSMap)
    (prev : List HTTPProxy) (h : WFMap sns0) :
    WFMap (mergePrevious classes sns0 prev) :=
  foldl_preserve _ (fun b a hb => proxyStep_wf classes b a hb) prev sns0 h

theorem routeStep_establishes (vis : String) (m : SNSMap) (route : ProxyRoute)
    (svc : ProxyService) (hsvc : svc ∈ route.Services) :
    VisIn svc.Name vis (routeStep vis m route) := by
  rcases List.append_of_mem hsvc with ⟨s1, s2, hs⟩
  unfold routeStep
  rw [hs, foldl_append_split]
  exact foldl_preserve _
    (fun b a hb => svcStep_visIn vis _ svc.Name vis b a hb) s2 _
    (svcStep_establishes vis _ _ svc)

theorem proxyStep_establishes (classes : List (String × String)) (m : SNSMap)
    (proxy : HTTPProxy) (route : ProxyRoute) (svc : ProxyService)
    (hstatus : proxy.Status.CurrentStatus = "valid")
    (hvis : lookupVis classes (lookupDefault proxy.Annotations ClassKey) ≠ "")
    (hroute : route ∈ proxy.Spec.Routes) (hsvc : svc ∈ route.Services) :
    VisIn svc.Name
      (lookupVis classes (lookupDefault proxy.Annotations ClassKey))
      (proxyStep classes m proxy) := by
  unfold proxyStep
  rw [if_neg (by simp [hstatus])]
  simp only [if_neg hvis]
  rcases List.append_of_mem hroute with ⟨r1, r2, hr⟩
  rw [hr, foldl_append_split]
  exact foldl_preserve _
    (fun b a hb => routeStep_visIn _ svc.Name _ b a hb) r2 _
    (routeStep_establishes _ _ route svc hsvc)

/-- **C4** (counterexample): the path-presence flag of a previous route is
not unioned into an existing desired-map entry.  Here the previous state
holds a path-based route for `svc` (`hasPath` true), `svc` already has an
entry with `HasPath := false` from the current spec, and after the merge the
entry still carries `HasPath = false` — the flag was not merged, only the
visibility set was. -/
theorem merge_union_cex :
    hasPathOfRoute (proxyWithPath.Spec.Routes.headD ⟨[], []⟩) = true ∧
    mapLookup (mergePrevious cfgFix snsSvc [proxyWithPath]) "svc" =
      some ⟨IntOrString.int 80, ["ext"], "", false⟩ :=
  ⟨by decide, by decide⟩

/-- **C4** (amended): merging a matched previous proxy into the desired map
unions only the observed visibility classes into an entry that already
exists (from the current ingress spec); the entry's port, rewrite host and
path-presence flag are preserved unchanged (the path flag of previous
routes is only used when a service has no entry yet). -/
theorem merge_union_visibilities (classes : List (String × String))
    (sns0 : SNSMap) (prev : List HTTPProxy) (name : String)
    (si0 : ServiceInfo) (h0 : mapLookup sns0 name = some si0) :
    ∃ si, mapLookup (mergePrevious classes sns0 prev) name = some si ∧
      si.Port = si0.Port ∧ si.HasPath = si0.HasPath ∧
      si.RewriteHost = si0.RewriteHost ∧
      si0.RawVisibilities ⊆ si.RawVisibilities ∧
      ∀ proxy ∈ prev, proxy.Status.CurrentStatus = "valid" →
        lookupVis classes (lookupDefault proxy.Annotations ClassKey) ≠ "" →
        ∀ route ∈ proxy.Spec.Routes, ∀ svc ∈ route.Services,
          svc.Name = name →
          lookupVis classes (lookupDefault proxy.Annotations ClassKey)
            ∈ si.RawVisibilities := by
  obtain ⟨si, hsi, hport, hpath, hrw, hsub⟩ :=
    mergePrevious_keeps classes sns0 prev name si0
      ⟨si0, h0, rfl, rfl, rfl, List.Subset.refl _⟩
  refine ⟨si, hsi, hport, hpath, hrw, hsub, ?_⟩
  intro proxy hproxy hstatus hvis route hroute svc hsvc hname
  have hvisin : VisIn name
      (lookupVis classes (lookupDefault proxy.Annotations ClassKey))
      (mergePrevious classes sns0 prev) := by
    rcases List.append_of_mem hproxy with ⟨q1, q2, hq⟩
    unfold mergePrevious
    rw [hq, foldl_append_split]
    refine foldl_preserve _
      (fun b a hb => proxyStep_visIn classes name _ b a hb) q2 _ ?_
    have hest := proxyStep_establishes classes
      (q1.foldl (proxyStep classes) sns0) proxy route svc hstatus hvis
      hroute hsvc
    rwa [hname] at hest
  obtain ⟨si2, hsi2, hv⟩ := hvisin
  rw [hsi] at hsi2
  obtain rfl := Option.some.inj hsi2
  exact hv

/-- Witness for `merge_union_visibilities` at a concrete input: `svc` has an
entry from the current spec; a valid previous proxy with a path-based route
referencing `svc` leaves port/flag/rewrite unchanged while its visibility is
unioned in. -/
theorem merge_union_visibilities_witness :
    mapLookup snsSvc "svc" =
      some ⟨IntOrString.int 80, ["ext"], "", false⟩ ∧
    (∃ si,
      mapLookup (mergePrevious cfgFix snsSvc [proxyWithPath]) "svc" =
        some si ∧
      si.Port = (⟨IntOrString.int 80, ["ext"], "", false⟩ : ServiceInfo).Port ∧
      si.HasPath =
        (⟨IntOrString.int 80, ["ext"], "", false⟩ : ServiceInfo).HasPath ∧
      si.RewriteHost =
        (⟨IntOrString.int 80, ["ext"], "", false⟩ : ServiceInfo).RewriteHost ∧
      (⟨IntOrString.int 80, ["ext"], "", false⟩ : ServiceInfo).RawVisibilities
        ⊆ si.RawVisibilities ∧
      ∀ proxy ∈ [proxyWithPath], proxy.Status.CurrentStatus = "valid" →
        lookupVis cfgFix (lookupDefault proxy.Annotations ClassKey) ≠ "" →
        ∀ route ∈ proxy.Spec.Routes, ∀ svc ∈ route.Services,
          svc.Name = "svc" →
          lookupVis cfgFix (lookupDefault proxy.Annotations ClassKey)
            ∈ si.RawVisibilities) :=
  ⟨by decide,
   merge_union_visibilities cfgFix snsSvc [proxyWithPath] "svc"
     ⟨IntOrString.int 80, ["ext"], "", false⟩ (by decide)⟩

/-- **C3** (counterexample): a backend service with a path-based rule in the
previous committed state is still probed when it also appears (path-less) in
the current ingress spec: the valid previous proxy's only route has a path
condition and references `svc`, yet the output contains a probe rule for
`svc`. -/
theorem haspath_exclusion_cex :
    proxyWithPath.Status.CurrentStatus = "valid" ∧
    (proxyWithPath.Spec.Routes.headD ⟨[], []⟩).Services.map
      ProxyService.Name = ["svc"] ∧
    hasPathOfRoute (proxyWithPath.Spec.Routes.headD ⟨[], []⟩) = true ∧
    rulePairs
      (MakeEndpointProbeIngress cfgFix ingFix snsSvc
        [proxyWithPath]).Spec.Rules = [("svc", "ext")] :=
  ⟨rfl, by decide, by decide, by decide⟩

/-- **C3** (amended): the exclusion is keyed on the desired map's `HasPath`
flag: no rule of the output ever references a service whose combined-map
entry carries `HasPath = true` (the flag comes from the current spec or,
for services absent there, from the first previous route in which the
service appears — not from every path-based previous rule). -/
theorem haspath_service_not_probed (classes : List (String × String))
    (ing : ParentMeta) (sns0 : SNSMap) (prev : List HTTPProxy)
    (name : String) (si : ServiceInfo)
    (hsi : mapLookup (mergePrevious classes sns0 prev) name = some si)
    (hp : si.HasPath = true) :
    ∀ r ∈ (MakeEndpointProbeIngress classes ing sns0 prev).Spec.Rules,
      ∀ pth ∈ (r.HTTP.getD ⟨[]⟩).Paths, ∀ s ∈ pth.Splits,
        s.Backend.ServiceName ≠ name := by
  intro r hr pth hpth s hs hname
  rcases (mem_rules_iff classes ing sns0 prev r).mp hr with
    ⟨name2, si2, hsi2, hp2, v, hv, rfl⟩
  simp only [mkProbeRule, Option.getD_some, List.mem_singleton] at hpth
  subst hpth
  simp only [List.mem_singleton] at hs
  subst hs
  have hn2 : name2 = name := hname
  subst hn2
  rw [hsi] at hsi2
  obtain rfl := Option.some.inj hsi2
  rw [hp] at hp2
  exact Bool.noConfusion hp2

/-- Witness for `haspath_service_not_probed`: the path-flagged `psvc` of a
concrete desired map is referenced by no emitted rule. -/
theorem haspath_service_not_probed_witness :
    (mapLookup (mergePrevious cfgFix snsWithPathSvc []) "psvc" =
       some ⟨IntOrString.int 81, ["ext"], "", true⟩ ∧
     (⟨IntOrString.int 81, ["ext"], "", true⟩ : ServiceInfo).HasPath = true) ∧
    ∀ r ∈ (MakeEndpointProbeIngress cfgFix ingFix snsWithPathSvc
        []).Spec.Rules,
      ∀ pth ∈ (r.HTTP.getD ⟨[]⟩).Paths, ∀ s ∈ pth.Splits,
        s.Backend.ServiceName ≠ "psvc" :=
  ⟨⟨by decide, by decide⟩,
   haspath_service_not_probed cfgFix ingFix snsWithPathSvc [] "psvc"
     ⟨IntOrString.int 81, ["ext"], "", true⟩ (by decide) (by decide)⟩

/-! ### Probe-host encoding -/

theorem ruleService_mkProbeRule (ing : ParentMeta) (name : String)
    (si : ServiceInfo) (v : String) :
    ruleService (mkProbeRule ing name si v) = name := rfl

theorem probeHost_inj_name {n1 n2 : String} {gen : Int} {iname ins : String}
    (h : probeHost n1 gen iname ins = probeHost n2 gen iname ins) :
    n1 = n2 := by
  unfold probeHost at h
  have hd := congrArg String.data h
  simp only [String.data_append, List.append_assoc] at hd
  exact String.ext (List.append_cancel_right hd)

/-- **C6** (counterexample): probe hosts are not globally unique across the
output: a service recorded under two visibility classes yields two distinct
rules — different (service, visibility) pairs — carrying the identical
probe host, so hosts of different (service, visibility) pairs are not
distinguishable. -/
theorem unique_hosts_cex :
    (MakeEndpointProbeIngress [] ingFix snsTwoVis []).Spec.Rules.map
        (fun r => (r.Hosts, r.Visibility)) =
      [(["svc.gen-1.ing.ns.net-contour.invalid"], "a"),
       (["svc.gen-1.ing.ns.net-contour.invalid"], "b")] := by decide

/-- **C6** (amended): every probe host of the output encodes the backend
service name, the ingress generation and the ingress identity
(name/namespace), and within one output two rules carry the same host
exactly when they target the same backend service — hosts are unique per
service (and distinct across generations and ingresses by the encoding),
while the rules of one service under different visibilities share one
host. -/
theorem probe_hosts_encode_service (classes : List (String × String))
    (ing : ParentMeta) (sns0 : SNSMap) (prev : List HTTPProxy) :
    (∀ r ∈ (MakeEndpointProbeIngress classes ing sns0 prev).Spec.Rules,
      r.Hosts =
        [probeHost (ruleService r) ing.Generation ing.Name ing.Namespace]) ∧
    ∀ r1 ∈ (MakeEndpointProbeIngress classes ing sns0 prev).Spec.Rules,
      ∀ r2 ∈ (MakeEndpointProbeIngress classes ing sns0 prev).Spec.Rules,
        (r1.Hosts = r2.Hosts ↔ ruleService r1 = ruleService r2) := by
  have henc : ∀ r ∈ (MakeEndpointProbeIngress classes ing sns0 prev).Spec.Rules,
      r.Hosts =
        [probeHost (ruleService r) ing.Generation ing.Name ing.Namespace] := by
    intro r hr
    rcases (mem_rules_iff classes ing sns0 prev r).mp hr with
      ⟨name, si, _, _, v, _, rfl⟩
    rfl
  refine ⟨henc, ?_⟩
  intro r1 h1 r2 h2
  rw [henc r1 h1, henc r2 h2]
  constructor
  · intro h
    exact probeHost_inj_name (List.singleton_injective h)
  · intro h
    rw [h]

/-- Witness for `probe_hosts_encode_service` at a concrete output with two
services: the encoding holds and hosts coincide exactly on equal service
names. -/
theorem probe_hosts_encode_service_witness :
    (∀ r ∈ (MakeEndpointProbeIngress cfgFix ingFix snsSvc
        [proxyNoPath]).Spec.Rules,
      r.Hosts =
        [probeHost (ruleService r) ingFix.Generation ingFix.Name
          ingFix.Namespace]) ∧
    ∀ r1 ∈ (MakeEndpointProbeIngress cfgFix ingFix snsSvc
        [proxyNoPath]).Spec.Rules,
      ∀ r2 ∈ (MakeEndpointProbeIngress cfgFix ingFix snsSvc
          [proxyNoPath]).Spec.Rules,
        (r1.Hosts = r2.Hosts ↔ ruleService r1 = ruleService r2) :=
  probe_hosts_encode_service cfgFix ingFix snsSvc [proxyNoPath]

/-- **C10**: shape invariant of the output — HTTP probing is enabled, and
every emitted rule has exactly one host (the synthetic probe host), a
visibility drawn from the recorded visibility set of its service's
desired-map entry, and exactly one HTTP path holding exactly one backend
split with `Percent` 100 that targets the service by its recorded port in
the parent ingress's namespace. -/
theorem rule_shape (classes : List (String × String)) (ing : ParentMeta)
    (sns0 : SNSMap) (prev : List HTTPProxy) (r : IngressRule)
    (hr : r ∈ (MakeEndpointProbeIngress classes ing sns0 prev).Spec.Rules) :
    (MakeEndpointProbeIngress classes ing sns0 prev).Spec.HTTPOption
      = "Enabled" ∧
    ∃ name si, mapLookup (mergePrevious classes sns0 prev) name = some si ∧
      r.Hosts = [probeHost name ing.Generation ing.Name ing.Namespace] ∧
      r.Visibility ∈ si.RawVisibilities ∧
      r.HTTP = some ⟨[⟨si.RewriteHost,
        [⟨⟨name, ing.Namespace, si.Port⟩, 100⟩]⟩]⟩ := by
  refine ⟨rfl, ?_⟩
  rcases (mem_rules_iff classes ing sns0 prev r).mp hr with
    ⟨name, si, hsi, _, v, hv, rfl⟩
  exact ⟨name, si, hsi, rfl, mem_sortStrings.mp hv, rfl⟩

/-- Witness for `rule_shape` at a concrete emitted rule. -/
theorem rule_shape_witness :
    (mkProbeRule ingFix "svc" ⟨IntOrString.int 80, ["ext"], "", false⟩ "ext")
      ∈ (MakeEndpointProbeIngress [] ingFix snsSvc []).Spec.Rules ∧
    ((MakeEndpointProbeIngress [] ingFix snsSvc []).Spec.HTTPOption
        = "Enabled" ∧
     ∃ name si, mapLookup (mergePrevious [] snsSvc []) name = some si ∧
       (mkProbeRule ingFix "svc" ⟨IntOrString.int 80, ["ext"], "", false⟩
          "ext").Hosts =
         [probeHost name ingFix.Generation ingFix.Name ingFix.Namespace] ∧
       (mkProbeRule ingFix "svc" ⟨IntOrString.int 80, ["ext"], "", false⟩
          "ext").Visibility ∈ si.RawVisibilities ∧
       (mkProbeRule ingFix "svc" ⟨IntOrString.int 80, ["ext"], "", false⟩
          "ext").HTTP =
         some ⟨[⟨si.RewriteHost,
           [⟨⟨name, ingFix.Namespace, si.Port⟩, 100⟩]⟩]⟩) :=
  ⟨by decide, rule_shape [] ingFix snsSvc [] _ (by decide)⟩

/-! ### The (service, visibility) pairs of the output -/

theorem mem_of_mapLookup {α : Type} {m : List (String × α)} {k : String}
    {v : α} (h : mapLookup m k = some v) : (k, v) ∈ m := by
  induction m with
  | nil => simp [mapLookup] at h
  | cons p rest ih =>
    obtain ⟨a, b⟩ := p
    by_cases h1 : a = k
    · subst h1
      simp only [mapLookup, if_pos rfl] at h
      obtain rfl := Option.some.inj h
      exact List.mem_cons_self _ _
    · simp only [mapLookup, if_neg h1] at h
      exact List.mem_cons_of_mem _ (ih h)

theorem emitFor_service (ing : ParentMeta) (sns : SNSMap) (n : String) :
    ∀ r ∈ emitFor ing sns n, ruleService r = n := by
  intro r hr
  simp only [emitFor] at hr
  by_cases h : ((mapLookup sns n).getD zeroServiceInfo).HasPath
  · rw [if_pos h] at hr
    simp at hr
  · rw [if_neg h] at hr
    rcases List.mem_map.mp hr with ⟨v, _, rfl⟩
    rfl

theorem emitFor_pair_fst (ing : ParentMeta) (sns : SNSMap) (n : String) :
    ∀ p ∈ (emitFor ing sns n).map (fun r => (ruleService r, r.Visibility)),
      p.1 = n := by
  intro p hp
  rcases List.mem_map.mp hp with ⟨r, hr, rfl⟩
  exact emitFor_service ing sns n r hr

theorem pairwise_le_flatMap_const (l : List String) (f : String → List String)
    (hf : ∀ a ∈ l, ∀ b ∈ f a, b = a) (hl : List.Pairwise (· ≤ ·) l) :
    List.Pairwise (fun x y : String => x ≤ y) (l.flatMap f) := by
  induction l with
  | nil => simp
  | cons a t ih =>
    rw [List.flatMap_cons, List.pairwise_append]
    refine ⟨?_, ih (fun x hx => hf x (List.mem_cons_of_mem a hx))
      (List.Pairwise.of_cons hl), ?_⟩
    · refine List.pairwise_of_forall_mem_list ?_
      intro x hx y hy
      rw [hf a (List.mem_cons_self a t) x hx,
        hf a (List.mem_cons_self a t) y hy]
    · intro x hx y hy
      rw [hf a (List.mem_cons_self a t) x hx]
      rcases List.mem_flatMap.mp hy with ⟨b, hb, hyb⟩
      rw [hf b (List.mem_cons_of_mem a hb) y hyb]
      exact (List.pairwise_cons.mp hl).1 b hb

/-- **C5**: the emitted rules are exactly one per (service, visibility) pair
of the combined desired map, excluding services flagged `HasPath`, and they
are listed in lexicographically sorted order of the service name.  (The
hypothesis models that the desired map's visibility sets are Go string sets
and hence duplicate-free.) -/
theorem rules_sorted_one_per_pair (classes : List (String × String))
    (ing : ParentMeta) (sns0 : SNSMap) (prev : List HTTPProxy)
    (hwf : ∀ p ∈ sns0, p.2.RawVisibilities.Nodup) :
    (∀ name vis,
      (name, vis) ∈ rulePairs
          (MakeEndpointProbeIngress classes ing sns0 prev).Spec.Rules ↔
        ∃ si, mapLookup (mergePrevious classes sns0 prev) name = some si ∧
          si.HasPath = false ∧ vis ∈ si.RawVisibilities) ∧
    (rulePairs
      (MakeEndpointProbeIngress classes ing sns0 prev).Spec.Rules).Nodup ∧
    List.Sorted (· ≤ ·)
      ((rulePairs
        (MakeEndpointProbeIngress classes ing sns0 prev).Spec.Rules).map
          Prod.fst) := by
  have hwfM : WFMap (mergePrevious classes sns0 prev) :=
    mergePrevious_wf classes sns0 prev
      (fun name si h => hwf (name, si) (mem_of_mapLookup h))
  refine ⟨?_, ?_, ?_⟩
  · intro name vis
    constructor
    · intro hmem
      rcases List.mem_map.mp hmem with ⟨r, hr, hkey⟩
      rcases (mem_rules_iff classes ing sns0 prev r).mp hr with
        ⟨n, si, hsi, hp, v, hv, rfl⟩
      have h1 : n = name := congrArg Prod.fst hkey
      have h2 : v = vis := congrArg Prod.snd hkey
      subst h1
      subst h2
      exact ⟨si, hsi, hp, mem_sortStrings.mp hv⟩
    · rintro ⟨si, hsi, hp, hvis⟩
      refine List.mem_map.mpr ⟨mkProbeRule ing name si vis, ?_, rfl⟩
      exact (mem_rules_iff classes ing sns0 prev _).mpr
        ⟨name, si, hsi, hp, vis, mem_sortStrings.mpr hvis, rfl⟩
  · rw [rulePairs, rules_eq_flatMap, List.map_flatMap]
    refine List.nodup_flatMap.mpr ⟨?_, ?_⟩
    · intro n hn
      rcases mapLookup_isSome_of_mem_keys (mem_sortedKeys.mp hn) with ⟨si, hsi⟩
      simp only [emitFor, hsi, Option.getD_some]
      by_cases h : si.HasPath
      · simp [h]
      · rw [if_neg h, List.map_map]
        refine List.Nodup.map ?_ (nodup_sortStrings (hwfM n si hsi))
        intro v1 v2 hv
        exact congrArg Prod.snd hv
    · refine (nodup_sortedKeys (mergePrevious classes sns0 prev)).imp ?_
      intro n1 n2 hne p hp1 hp2
      exact hne ((emitFor_pair_fst ing _ n1 p hp1).symm.trans
        (emitFor_pair_fst ing _ n2 p hp2))
  · have hmapfst :
        (rulePairs
          (MakeEndpointProbeIngress classes ing sns0 prev).Spec.Rules).map
            Prod.fst =
        (sortedKeys (mergePrevious classes sns0 prev)).flatMap
          (fun n => (emitFor ing (mergePrevious classes sns0 prev) n).map
            ruleService) := by
      rw [rulePairs, rules_eq_flatMap, List.map_flatMap, List.map_flatMap]
      simp [List.map_map]
      rfl
    rw [hmapfst]
    refine pairwise_le_flatMap_const _ _ ?_
      (sorted_le_sortedKeys (mergePrevious classes sns0 prev))
    intro a ha b hb
    rcases List.mem_map.mp hb with ⟨r, hr, rfl⟩
    exact emitFor_service ing _ a r hr

/-- Witness for `rules_sorted_one_per_pair` at a concrete input holding a
path-flagged service, a plain service, and a previous proxy. -/
theorem rules_sorted_one_per_pair_witness :
    (∀ p ∈ snsWithPathSvc, p.2.RawVisibilities.Nodup) ∧
    ((∀ name vis,
      (name, vis) ∈ rulePairs
          (MakeEndpointProbeIngress cfgFix ingFix snsWithPathSvc
            [proxyWithPath]).Spec.Rules ↔
        ∃ si, mapLookup (mergePrevious cfgFix snsWithPathSvc [proxyWithPath])
            name = some si ∧
          si.HasPath = false ∧ vis ∈ si.RawVisibilities) ∧
    (rulePairs
      (MakeEndpointProbeIngress cfgFix ingFix snsWithPathSvc
        [proxyWithPath]).Spec.Rules).Nodup ∧
    List.Sorted (· ≤ ·)
      ((rulePairs
        (MakeEndpointProbeIngress cfgFix ingFix snsWithPathSvc
          [proxyWithPath]).Spec.Rules).map Prod.fst)) :=
  ⟨by decide,
   rules_sorted_one_per_pair cfgFix ingFix snsWithPathSvc [proxyWithPath]
     (by decide)⟩

end NetContour
